import Mathlib

/-!
Verification of the debt-amortization simulator of `budget_app.py`.

The simulator is embedded shallowly: Python floats are modelled by exact
rationals (`ℚ`), the `while ... and months < 600` loops by structural
recursion on the remaining fuel (600 at entry, so `months < 600` at the
loop head is exactly `0 < fuel`), and the in-place mutation of loan
dictionaries by explicit state passing.  A separate store model with
addressed loan records captures `loans = [loan.copy() for loan in loans]`
and the writes the simulation performs, for the no-mutation claim.
-/

namespace BudgetApp

/-- A loan record, as built by the UI: `{"name": ..., "balance": ...,
"rate": ..., "min_payment": ...}`. -/
structure Loan where
  name : String
  balance : ℚ
  rate : ℚ
  min_payment : ℚ
deriving DecidableEq, Repr

/-- The monthly interest factor `rate / 100 / 12` used by both
`calculate_payoff` and `simulate`. -/
def monthlyRate (rate : ℚ) : ℚ := rate / 100 / 12

/-- One iteration of the `calculate_payoff` loop acting on the balance:
`balance += interest; balance -= monthly_payment; if balance < 0: balance = 0`. -/
def payoffStep (rate mp b : ℚ) : ℚ :=
  let interest := b * monthlyRate rate
  let b1 := b + interest - mp
  if b1 < 0 then 0 else b1

/-- The `while balance > 0 and months < 600` loop of `calculate_payoff`,
with `fuel = 600 - months` so the guard `months < 600` is `0 < fuel`. -/
def payoffLoop (rate mp : ℚ) : ℕ → ℚ → ℚ → ℕ → ℕ × ℚ
  | 0, _, total, months => (months, total)
  | fuel + 1, b, total, months =>
    if 0 < b then
      payoffLoop rate mp fuel (payoffStep rate mp b) (total + b * monthlyRate rate) (months + 1)
    else (months, total)

/-- `calculate_payoff(balance, rate, monthly_payment)` of `budget_app.py`:
months to payoff with monthly compound interest, capped at 600 months. -/
def calculate_payoff (balance rate monthly_payment : ℚ) : ℕ × ℚ :=
  payoffLoop rate monthly_payment 600 balance 0 0

/-- The `for loan in loans` pass of one month of `simulate`: skip loans with
`balance <= 0`; otherwise accrue interest into the balance and the running
total, pay `min(min_payment, balance)` and charge it to the extra pool.
Returns the updated loans, total interest, and remaining pool. -/
def monthMinPass : List Loan → ℚ → ℚ → List Loan × ℚ × ℚ
  | [], total, extraLeft => ([], total, extraLeft)
  | loan :: rest, total, extraLeft =>
    if loan.balance ≤ 0 then
      let r := monthMinPass rest total extraLeft
      (loan :: r.1, r.2)
    else
      let interest := loan.balance * monthlyRate loan.rate
      let b1 := loan.balance + interest
      let pay := min loan.min_payment b1
      let r := monthMinPass rest (total + interest) (extraLeft - pay)
      ({ loan with balance := b1 - pay } :: r.1, r.2)

/-- `target_loan = loans[0] if loans[0]["balance"] > 0 else next((l for l in
loans if l["balance"] > 0), None)`, then `target_loan["balance"] -= min(
extra_left, target_loan["balance"])`: pay the first positive-balance loan. -/
def applyExtra : List Loan → ℚ → List Loan
  | [], _ => []
  | loan :: rest, amt =>
    if 0 < loan.balance then
      { loan with balance := loan.balance - min amt loan.balance } :: rest
    else
      loan :: applyExtra rest amt

/-- One month of `simulate`: the minimum-payment pass, then
`extra_left = max(0, extra_left)` and, if positive, the extra payment. -/
def monthStep (extra : ℚ) (s : List Loan × ℚ) : List Loan × ℚ :=
  let r := monthMinPass s.1 s.2 extra
  let e := max 0 r.2.2
  (if 0 < e then applyExtra r.1 e else r.1, r.2.1)

/-- `any(l["balance"] > 0 for l in loans)`. -/
def hasPositive (loans : List Loan) : Bool :=
  loans.any fun l => decide (0 < l.balance)

/-- The `while any(...) and months < 600` loop of `simulate`, with
`fuel = 600 - months`. -/
def simLoop (extra : ℚ) : ℕ → List Loan × ℚ → ℕ → ℕ × ℚ
  | 0, s, months => (months, s.2)
  | fuel + 1, s, months =>
    if hasPositive s.1 then simLoop extra fuel (monthStep extra s) (months + 1)
    else (months, s.2)

/-- `simulate(loans, extra)` of `budget_app.py`.  The entry copy
`loans = [loan.copy() for loan in loans]` is the identity under value
semantics; the store model below renders it explicitly. -/
def simulate (loans : List Loan) (extra : ℚ) : ℕ × ℚ :=
  simLoop extra 600 (loans, 0) 0

/-- Insert an element into a list sorted ascending by `key`, before the
first element whose key is not smaller: the stable insertion step. -/
def insertBy {α : Type} (key : α → ℚ) (x : α) : List α → List α
  | [] => [x]
  | y :: ys => if key x ≤ key y then x :: y :: ys else y :: insertBy key x ys

/-- Stable ascending sort by `key`, the behaviour of Python's stable
`sorted(loans, key=...)` (a stable sort by a numeric key is unique, so
insertion sort is an exact model of Timsort here). -/
def sortBy {α : Type} (key : α → ℚ) : List α → List α
  | [] => []
  | x :: xs => insertBy key x (sortBy key xs)

/-- `snowball(loans, extra)`: sort ascending by balance, then simulate. -/
def snowball (loans : List Loan) (extra : ℚ) : ℕ × ℚ :=
  simulate (sortBy (fun l => l.balance) loans) extra

/-- `avalanche(loans, extra)`: `sorted(..., key=rate, reverse=True)` is the
stable descending sort by rate, i.e. the stable ascending sort by the
negated rate. -/
def avalanche (loans : List Loan) (extra : ℚ) : ℕ × ℚ :=
  simulate (sortBy (fun l => -l.rate) loans) extra

/-- Every balance in the list is non-negative. -/
def allNonneg (loans : List Loan) : Prop := ∀ l ∈ loans, 0 ≤ l.balance

instance (loans : List Loan) : Decidable (allNonneg loans) :=
  List.decidableBAll _ loans

/-- Sum of the interest accrued in one month: every loan with positive
balance contributes `balance * (rate / 100 / 12)`; the rest contribute
nothing. -/
def interestSum (loans : List Loan) : ℚ :=
  ((loans.filter fun l => decide (0 < l.balance)).map
    fun l => l.balance * monthlyRate l.rate).sum

/-- Sum of the minimum payments made in one month: every loan with positive
balance pays `min(min_payment, balance + interest)`. -/
def paySum (loans : List Loan) : ℚ :=
  ((loans.filter fun l => decide (0 < l.balance)).map
    fun l => min l.min_payment (l.balance + l.balance * monthlyRate l.rate)).sum

/-- Every rate in the list is non-negative. -/
def ratesNonneg (loans : List Loan) : Prop := ∀ l ∈ loans, 0 ≤ l.rate

instance (loans : List Loan) : Decidable (ratesNonneg loans) :=
  List.decidableBAll _ loans

/-- Every minimum payment in the list is non-negative. -/
def minPaymentsNonneg (loans : List Loan) : Prop := ∀ l ∈ loans, 0 ≤ l.min_payment

instance (loans : List Loan) : Decidable (minPaymentsNonneg loans) :=
  List.decidableBAll _ loans

/-! ### The store model of the caller's mutable loan dictionaries

Python loan records are dictionaries reached through references; `simulate`
receives a list of references and immediately rebuilds it as
`[loan.copy() for loan in loans]`.  We model the reference structure
explicitly: a store maps addresses to loan records, `next` is the
allocation frontier (every live record of the caller sits at an address
below it), and the simulator copies each input record to a fresh address
before doing any write. -/

/-- An addressed store of loan records together with its allocation
frontier. -/
structure Store where
  data : ℕ → Loan
  next : ℕ

/-- Overwrite the record at one address. -/
def Store.write (h : Store) (i : ℕ) (l : Loan) : Store :=
  { h with data := fun j => if j = i then l else h.data j }

/-- `loans = [loan.copy() for loan in loans]`: copy each addressed record
to a fresh address, returning the new store and the fresh addresses. -/
def allocCopies : Store → List ℕ → Store × List ℕ
  | h, [] => (h, [])
  | h, i :: is =>
    let h1 : Store := { data := fun j => if j = h.next then h.data i else h.data j,
                        next := h.next + 1 }
    let r := allocCopies h1 is
    (r.1, h.next :: r.2)

/-- The minimum-payment pass of one month of `simulate`, acting on the
store through the loans' addresses. -/
def monthMinPassS : List ℕ → Store → ℚ → ℚ → Store × ℚ × ℚ
  | [], h, total, extraLeft => (h, total, extraLeft)
  | i :: rest, h, total, extraLeft =>
    let loan := h.data i
    if loan.balance ≤ 0 then
      monthMinPassS rest h total extraLeft
    else
      let interest := loan.balance * monthlyRate loan.rate
      let b1 := loan.balance + interest
      let pay := min loan.min_payment b1
      monthMinPassS rest (h.write i { loan with balance := b1 - pay })
        (total + interest) (extraLeft - pay)

/-- The extra payment to the first positive-balance loan, on the store. -/
def applyExtraS : List ℕ → Store → ℚ → Store
  | [], h, _ => h
  | i :: rest, h, amt =>
    let loan := h.data i
    if 0 < loan.balance then
      h.write i { loan with balance := loan.balance - min amt loan.balance }
    else
      applyExtraS rest h amt

/-- `any(l["balance"] > 0 for l in loans)`, on the store. -/
def hasPositiveS (ids : List ℕ) (h : Store) : Bool :=
  ids.any fun i => decide (0 < (h.data i).balance)

/-- One month of `simulate`, on the store. -/
def monthStepS (ids : List ℕ) (extra : ℚ) (h : Store) (total : ℚ) : Store × ℚ :=
  let r := monthMinPassS ids h total extra
  let e := max 0 r.2.2
  (if 0 < e then applyExtraS ids r.1 e else r.1, r.2.1)

/-- The month loop of `simulate`, on the store. -/
def simLoopS (ids : List ℕ) (extra : ℚ) : ℕ → Store → ℚ → ℕ → (ℕ × ℚ) × Store
  | 0, h, total, months => ((months, total), h)
  | fuel + 1, h, total, months =>
    if hasPositiveS ids h then
      let r := monthStepS ids extra h total
      simLoopS ids extra fuel r.1 r.2 (months + 1)
    else ((months, total), h)

/-- `simulate(loans, extra)` on the store: copy the records on entry, then
run the month loop on the fresh copies only. -/
def simulateS (h : Store) (ids : List ℕ) (extra : ℚ) : (ℕ × ℚ) × Store :=
  let r := allocCopies h ids
  simLoopS r.2 extra 600 r.1 0 0

/-- `snowball` on the store: `sorted(loans, key=balance)` builds a new list
of the same references, then `simulate` runs on it. -/
def snowballS (h : Store) (ids : List ℕ) (extra : ℚ) : (ℕ × ℚ) × Store :=
  simulateS h (sortBy (fun i => (h.data i).balance) ids) extra

/-- `avalanche` on the store. -/
def avalancheS (h : Store) (ids : List ℕ) (extra : ℚ) : (ℕ × ℚ) × Store :=
  simulateS h (sortBy (fun i => -(h.data i).rate) ids) extra

/-! ### Named inputs used by the concrete claims -/

/-- The 100-balance 5%-rate loan of the spec's two-loan test. -/
def loanA : Loan := ⟨"A", 100, 5, 10⟩

/-- The 50-balance 20%-rate loan of the spec's two-loan test. -/
def loanB : Loan := ⟨"B", 50, 20, 10⟩

/-- A loan whose heavily negative rate turns the first month's payment
`min(min_payment, balance)` into a refund of the pool. -/
def refundLoan : Loan := ⟨"x", 10, -2400, 0⟩

/-- A small ordinary loan paid down by its minimum payment. -/
def slowLoan : Loan := ⟨"y", 8, 0, 1⟩

/-- A paid-off loan (balance 0), skipped by every month of `simulate`. -/
def exSkip : Loan := ⟨"z", 0, 50, 5⟩

/-- A two-loan list whose first member is already paid off. -/
def exLoans : List Loan := [exSkip, ⟨"b", 100, 12, 10⟩]

/-- A concrete store with two live loan records below the frontier. -/
def exStore : Store := ⟨fun _ => ⟨"a", 100, 12, 10⟩, 2⟩

/-! ## Lemmas about the single-loan payoff loop -/

theorem payoffLoop_months_le (rate mp : ℚ) :
    ∀ (fuel : ℕ) (b total : ℚ) (months : ℕ),
      (payoffLoop rate mp fuel b total months).1 ≤ months + fuel := by
  intro fuel
  induction fuel with
  | zero => intro b total months; exact Nat.le_add_right months 0
  | succ n ih =>
    intro b total months
    rw [payoffLoop]
    by_cases h : 0 < b
    · rw [if_pos h]
      exact le_trans (ih _ _ _) (by omega)
    · rw [if_neg h]
      exact Nat.le_add_right months (n + 1)

theorem payoffStep_nonneg (rate mp b : ℚ) : 0 ≤ payoffStep rate mp b := by
  rw [payoffStep]
  by_cases h : b + b * monthlyRate rate - mp < 0
  · rw [if_pos h]
  · rw [if_neg h]
    exact le_of_not_lt h

theorem payoffStep_of_nonneg {rate mp b : ℚ}
    (h : 0 ≤ b + b * monthlyRate rate - mp) :
    payoffStep rate mp b = b + b * monthlyRate rate - mp := by
  rw [payoffStep, if_neg (not_lt.mpr h)]

theorem monthlyRate_nonneg {rate : ℚ} (h : 0 ≤ rate) : 0 ≤ monthlyRate rate := by
  rw [monthlyRate]; positivity

theorem monthlyRate_pos {rate : ℚ} (h : 0 < rate) : 0 < monthlyRate rate := by
  rw [monthlyRate]; positivity

theorem payoffLoop_total_mono (rate mp : ℚ) :
    ∀ (fuel : ℕ) (b total : ℚ) (months : ℕ), 0 ≤ b → 0 ≤ rate →
      total ≤ (payoffLoop rate mp fuel b total months).2 := by
  intro fuel
  induction fuel with
  | zero => intro b total months _ _; exact le_refl total
  | succ n ih =>
    intro b total months hb hr
    rw [payoffLoop]
    by_cases h : 0 < b
    · rw [if_pos h]
      have h1 : total ≤ total + b * monthlyRate rate := by
        have := mul_nonneg hb (monthlyRate_nonneg hr)
        linarith
      exact le_trans h1 (ih _ _ _ (payoffStep_nonneg rate mp b) hr)
    · rw [if_neg h]

theorem payoffLoop_zero_payment (rate : ℚ) (hr : 0 < rate) :
    ∀ (fuel : ℕ) (b total : ℚ) (months : ℕ), 0 < b →
      payoffLoop rate 0 fuel b total months =
        (months + fuel, total + b * ((1 + monthlyRate rate) ^ fuel - 1)) := by
  intro fuel
  induction fuel with
  | zero =>
    intro b total months _
    rw [payoffLoop]
    exact Prod.ext rfl (by ring)
  | succ n ih =>
    intro b total months hb
    have hc : 0 < monthlyRate rate := monthlyRate_pos hr
    have hb1 : 0 ≤ b + b * monthlyRate rate - 0 := by nlinarith
    have hb2 : 0 < b + b * monthlyRate rate - 0 := by nlinarith
    rw [payoffLoop, if_pos hb, payoffStep_of_nonneg hb1, ih _ _ _ hb2]
    refine Prod.ext (by omega) ?_
    show total + b * monthlyRate rate +
        (b + b * monthlyRate rate - 0) * ((1 + monthlyRate rate) ^ n - 1) =
      total + b * ((1 + monthlyRate rate) ^ (n + 1) - 1)
    rw [pow_succ]
    ring

/-! ## Lemmas about the monthly pass of `simulate` -/

theorem monthMinPass_total :
    ∀ (loans : List Loan) (total extraLeft : ℚ),
      (monthMinPass loans total extraLeft).2.1 = total + interestSum loans := by
  intro loans
  induction loans with
  | nil => intro total e; simp [monthMinPass, interestSum]
  | cons loan rest ih =>
    intro total e
    rw [monthMinPass]
    by_cases h : loan.balance ≤ 0
    · rw [if_pos h]
      have hp : ¬ (0 < loan.balance) := not_lt.mpr h
      simp only [ih, interestSum, List.filter_cons, decide_eq_true_eq]
      rw [if_neg hp]
    · rw [if_neg h]
      have hp : 0 < loan.balance := lt_of_not_le h
      simp only [ih, interestSum, List.filter_cons, decide_eq_true_eq]
      rw [if_pos hp]
      simp only [List.map_cons, List.sum_cons]
      ring

theorem monthMinPass_extraLeft :
    ∀ (loans : List Loan) (total extraLeft : ℚ),
      (monthMinPass loans total extraLeft).2.2 = extraLeft - paySum loans := by
  intro loans
  induction loans with
  | nil => intro total e; simp [monthMinPass, paySum]
  | cons loan rest ih =>
    intro total e
    rw [monthMinPass]
    by_cases h : loan.balance ≤ 0
    · rw [if_pos h]
      have hp : ¬ (0 < loan.balance) := not_lt.mpr h
      simp only [ih, paySum, List.filter_cons, decide_eq_true_eq]
      rw [if_neg hp]
    · rw [if_neg h]
      have hp : 0 < loan.balance := lt_of_not_le h
      simp only [ih, paySum, List.filter_cons, decide_eq_true_eq]
      rw [if_pos hp]
      simp only [List.map_cons, List.sum_cons]
      ring

theorem monthMinPass_fst_indep :
    ∀ (loans : List Loan) (total e total' e' : ℚ),
      (monthMinPass loans total e).1 = (monthMinPass loans total' e').1 := by
  intro loans
  induction loans with
  | nil => intro total e total' e'; rfl
  | cons loan rest ih =>
    intro total e total' e'
    rw [monthMinPass, monthMinPass]
    by_cases h : loan.balance ≤ 0
    · rw [if_pos h, if_pos h]
      dsimp only
      rw [ih total e total' e']
    · rw [if_neg h, if_neg h]
      dsimp only
      rw [ih (total + loan.balance * monthlyRate loan.rate)
        (e - min loan.min_payment (loan.balance + loan.balance * monthlyRate loan.rate))
        (total' + loan.balance * monthlyRate loan.rate)
        (e' - min loan.min_payment (loan.balance + loan.balance * monthlyRate loan.rate))]

theorem monthMinPass_nonneg :
    ∀ (loans : List Loan) (total extraLeft : ℚ), allNonneg loans →
      allNonneg (monthMinPass loans total extraLeft).1 := by
  intro loans
  induction loans with
  | nil => intro total e _; exact fun l hl => absurd hl (List.not_mem_nil l)
  | cons loan rest ih =>
    intro total e hall
    rw [monthMinPass]
    by_cases h : loan.balance ≤ 0
    · rw [if_pos h]
      intro l hl
      rcases List.mem_cons.mp hl with h1 | h1
      · exact h1 ▸ hall loan (List.mem_cons_self ..)
      · exact ih total e (fun x hx => hall x (List.mem_cons_of_mem _ hx)) l h1
    · rw [if_neg h]
      intro l hl
      rcases List.mem_cons.mp hl with h1 | h1
      · rw [h1]
        have : min loan.min_payment (loan.balance + loan.balance * monthlyRate loan.rate) ≤
            loan.balance + loan.balance * monthlyRate loan.rate := min_le_right ..
        show 0 ≤ loan.balance + loan.balance * monthlyRate loan.rate -
          min loan.min_payment (loan.balance + loan.balance * monthlyRate loan.rate)
        linarith
      · exact ih _ _ (fun x hx => hall x (List.mem_cons_of_mem _ hx)) l h1

theorem applyExtra_nonneg :
    ∀ (loans : List Loan) (amt : ℚ), allNonneg loans →
      allNonneg (applyExtra loans amt) := by
  intro loans
  induction loans with
  | nil => intro amt _; exact fun l hl => absurd hl (List.not_mem_nil l)
  | cons loan rest ih =>
    intro amt hall
    rw [applyExtra]
    by_cases h : 0 < loan.balance
    · rw [if_pos h]
      intro l hl
      rcases List.mem_cons.mp hl with h1 | h1
      · rw [h1]
        have : min amt loan.balance ≤ loan.balance := min_le_right ..
        show 0 ≤ loan.balance - min amt loan.balance
        linarith
      · exact hall l (List.mem_cons_of_mem _ h1)
    · rw [if_neg h]
      intro l hl
      rcases List.mem_cons.mp hl with h1 | h1
      · exact h1 ▸ hall loan (List.mem_cons_self ..)
      · exact ih amt (fun x hx => hall x (List.mem_cons_of_mem _ hx)) l h1

theorem monthStep_nonneg (extra : ℚ) (s : List Loan × ℚ) (h : allNonneg s.1) :
    allNonneg (monthStep extra s).1 := by
  rw [monthStep]
  dsimp only
  split
  · exact applyExtra_nonneg _ _ (monthMinPass_nonneg s.1 s.2 extra h)
  · exact monthMinPass_nonneg s.1 s.2 extra h

theorem monthStep_iterate_nonneg (extra : ℚ) :
    ∀ (n : ℕ) (s : List Loan × ℚ), allNonneg s.1 →
      allNonneg ((monthStep extra)^[n] s).1 := by
  intro n
  induction n with
  | zero => intro s h; exact h
  | succ k ih =>
    intro s h
    rw [Function.iterate_succ_apply]
    exact ih (monthStep extra s) (monthStep_nonneg extra s h)

/-- In one month, nothing but balances changes: every loan of the output
comes from a loan of the input with the same name, rate and minimum
payment. -/
theorem monthMinPass_shape :
    ∀ (loans : List Loan) (total extraLeft : ℚ),
      ∀ l ∈ (monthMinPass loans total extraLeft).1, ∃ l0 ∈ loans,
        l.name = l0.name ∧ l.rate = l0.rate ∧ l.min_payment = l0.min_payment := by
  intro loans
  induction loans with
  | nil => intro total e l hl; exact absurd hl (List.not_mem_nil l)
  | cons loan rest ih =>
    intro total e
    rw [monthMinPass]
    by_cases h : loan.balance ≤ 0
    · rw [if_pos h]
      intro l hl
      rcases List.mem_cons.mp hl with h1 | h1
      · exact ⟨loan, List.mem_cons_self .., h1 ▸ ⟨rfl, rfl, rfl⟩⟩
      · obtain ⟨l0, hl0, he⟩ := ih total e l h1
        exact ⟨l0, List.mem_cons_of_mem _ hl0, he⟩
    · rw [if_neg h]
      intro l hl
      rcases List.mem_cons.mp hl with h1 | h1
      · exact ⟨loan, List.mem_cons_self .., h1 ▸ ⟨rfl, rfl, rfl⟩⟩
      · obtain ⟨l0, hl0, he⟩ := ih _ _ l h1
        exact ⟨l0, List.mem_cons_of_mem _ hl0, he⟩

theorem applyExtra_shape :
    ∀ (loans : List Loan) (amt : ℚ),
      ∀ l ∈ applyExtra loans amt, ∃ l0 ∈ loans,
        l.name = l0.name ∧ l.rate = l0.rate ∧ l.min_payment = l0.min_payment := by
  intro loans
  induction loans with
  | nil => intro amt l hl; exact absurd hl (List.not_mem_nil l)
  | cons loan rest ih =>
    intro amt
    rw [applyExtra]
    by_cases h : 0 < loan.balance
    · rw [if_pos h]
      intro l hl
      rcases List.mem_cons.mp hl with h1 | h1
      · exact ⟨loan, List.mem_cons_self .., h1 ▸ ⟨rfl, rfl, rfl⟩⟩
      · exact ⟨l, List.mem_cons_of_mem _ h1, rfl, rfl, rfl⟩
    · rw [if_neg h]
      intro l hl
      rcases List.mem_cons.mp hl with h1 | h1
      · exact ⟨loan, List.mem_cons_self .., h1 ▸ ⟨rfl, rfl, rfl⟩⟩
      · obtain ⟨l0, hl0, he⟩ := ih amt l h1
        exact ⟨l0, List.mem_cons_of_mem _ hl0, he⟩

theorem monthStep_shape (extra : ℚ) (s : List Loan × ℚ) :
    ∀ l ∈ (monthStep extra s).1, ∃ l0 ∈ s.1,
      l.name = l0.name ∧ l.rate = l0.rate ∧ l.min_payment = l0.min_payment := by
  rw [monthStep]
  dsimp only
  split
  · intro l hl
    obtain ⟨l1, hl1, he1⟩ := applyExtra_shape _ _ l hl
    obtain ⟨l0, hl0, he0⟩ := monthMinPass_shape s.1 s.2 extra l1 hl1
    exact ⟨l0, hl0, he1.1.trans he0.1, he1.2.1.trans he0.2.1, he1.2.2.trans he0.2.2⟩
  · intro l hl
    exact monthMinPass_shape s.1 s.2 extra l hl

theorem monthStep_ratesNonneg (extra : ℚ) (s : List Loan × ℚ)
    (h : ratesNonneg s.1) : ratesNonneg (monthStep extra s).1 := by
  intro l hl
  obtain ⟨l0, hl0, he⟩ := monthStep_shape extra s l hl
  rw [he.2.1]
  exact h l0 hl0

theorem interestSum_nonneg (loans : List Loan) (h : ratesNonneg loans) :
    0 ≤ interestSum loans := by
  rw [interestSum]
  apply List.sum_nonneg
  intro x hx
  obtain ⟨l, hl, hlx⟩ := List.mem_map.mp hx
  have hmem := List.mem_of_mem_filter hl
  have hpos : 0 < l.balance := by
    have := List.of_mem_filter hl
    simpa using this
  rw [← hlx]
  exact mul_nonneg (le_of_lt hpos) (monthlyRate_nonneg (h l hmem))

theorem monthStep_total (extra : ℚ) (s : List Loan × ℚ) :
    (monthStep extra s).2 = s.2 + interestSum s.1 := by
  rw [monthStep]
  dsimp only
  exact monthMinPass_total s.1 s.2 extra

theorem simLoop_months_le (extra : ℚ) :
    ∀ (fuel : ℕ) (s : List Loan × ℚ) (months : ℕ),
      (simLoop extra fuel s months).1 ≤ months + fuel := by
  intro fuel
  induction fuel with
  | zero => intro s months; exact Nat.le_add_right months 0
  | succ n ih =>
    intro s months
    rw [simLoop]
    by_cases h : hasPositive s.1
    · rw [if_pos h]
      exact le_trans (ih _ _) (by omega)
    · rw [if_neg h]
      exact Nat.le_add_right months (n + 1)

theorem simLoop_total_mono (extra : ℚ) :
    ∀ (fuel : ℕ) (s : List Loan × ℚ) (months : ℕ),
      allNonneg s.1 → ratesNonneg s.1 →
      s.2 ≤ (simLoop extra fuel s months).2 := by
  intro fuel
  induction fuel with
  | zero => intro s months _ _; exact le_refl _
  | succ n ih =>
    intro s months hb hr
    rw [simLoop]
    by_cases h : hasPositive s.1
    · rw [if_pos h]
      have h1 : s.2 ≤ (monthStep extra s).2 := by
        rw [monthStep_total]
        have := interestSum_nonneg s.1 hr
        linarith
      exact le_trans h1 (ih (monthStep extra s) (months + 1)
        (monthStep_nonneg extra s hb) (monthStep_ratesNonneg extra s hr))
    · rw [if_neg h]

/-! ## A loan with non-positive balance is left untouched -/

theorem monthMinPass_get_nonpos :
    ∀ (loans : List Loan) (total extraLeft : ℚ) (i : ℕ) (loan : Loan),
      loans[i]? = some loan → loan.balance ≤ 0 →
      (monthMinPass loans total extraLeft).1[i]? = some loan := by
  intro loans
  induction loans with
  | nil => intro total e i loan h _; simp at h
  | cons hd rest ih =>
    intro total e i loan hget hbal
    rw [monthMinPass]
    by_cases h : hd.balance ≤ 0
    · rw [if_pos h]
      dsimp only
      match i with
      | 0 =>
        rw [List.getElem?_cons_zero] at hget ⊢
        exact hget
      | k + 1 =>
        rw [List.getElem?_cons_succ] at hget ⊢
        exact ih total e k loan hget hbal
    · rw [if_neg h]
      dsimp only
      match i with
      | 0 =>
        rw [List.getElem?_cons_zero] at hget
        have hh : hd = loan := Option.some_inj.mp hget
        exact absurd hbal (by rw [← hh]; exact h)
      | k + 1 =>
        rw [List.getElem?_cons_succ] at hget ⊢
        exact ih _ _ k loan hget hbal

theorem applyExtra_get_nonpos :
    ∀ (loans : List Loan) (amt : ℚ) (i : ℕ) (loan : Loan),
      loans[i]? = some loan → loan.balance ≤ 0 →
      (applyExtra loans amt)[i]? = some loan := by
  intro loans
  induction loans with
  | nil => intro amt i loan h _; simp at h
  | cons hd rest ih =>
    intro amt i loan hget hbal
    rw [applyExtra]
    by_cases h : 0 < hd.balance
    · rw [if_pos h]
      match i with
      | 0 =>
        rw [List.getElem?_cons_zero] at hget
        have : hd = loan := Option.some_inj.mp hget
        exact absurd (this ▸ h) (not_lt.mpr hbal)
      | k + 1 =>
        rw [List.getElem?_cons_succ] at hget ⊢
        exact hget
    · rw [if_neg h]
      match i with
      | 0 =>
        rw [List.getElem?_cons_zero] at hget ⊢
        exact hget
      | k + 1 =>
        rw [List.getElem?_cons_succ] at hget ⊢
        exact ih amt k loan hget hbal

theorem monthStep_get_nonpos (extra : ℚ) (s : List Loan × ℚ) (i : ℕ) (loan : Loan)
    (hget : s.1[i]? = some loan) (hbal : loan.balance ≤ 0) :
    (monthStep extra s).1[i]? = some loan := by
  rw [monthStep]
  dsimp only
  split
  · exact applyExtra_get_nonpos _ _ i loan
      (monthMinPass_get_nonpos s.1 s.2 extra i loan hget hbal) hbal
  · exact monthMinPass_get_nonpos s.1 s.2 extra i loan hget hbal

theorem monthStep_iterate_get_nonpos (extra : ℚ) :
    ∀ (n : ℕ) (s : List Loan × ℚ) (i : ℕ) (loan : Loan),
      s.1[i]? = some loan → loan.balance ≤ 0 →
      ((monthStep extra)^[n] s).1[i]? = some loan := by
  intro n
  induction n with
  | zero => intro s i loan h _; exact h
  | succ k ih =>
    intro s i loan hget hbal
    rw [Function.iterate_succ_apply]
    exact ih (monthStep extra s) i loan (monthStep_get_nonpos extra s i loan hget hbal) hbal

theorem interestSum_eraseIdx :
    ∀ (loans : List Loan) (i : ℕ) (loan : Loan),
      loans[i]? = some loan → loan.balance ≤ 0 →
      interestSum (loans.eraseIdx i) = interestSum loans := by
  intro loans
  induction loans with
  | nil => intro i loan h _; simp at h
  | cons hd rest ih =>
    intro i loan hget hbal
    match i with
    | 0 =>
      rw [List.getElem?_cons_zero] at hget
      have hhd : hd = loan := Option.some_inj.mp hget
      rw [List.eraseIdx_cons_zero]
      rw [interestSum, interestSum, List.filter_cons,
        if_neg (by simp [hhd, not_lt.mpr hbal])]
    | k + 1 =>
      rw [List.getElem?_cons_succ] at hget
      rw [List.eraseIdx_cons_succ]
      rw [interestSum, interestSum, List.filter_cons, List.filter_cons]
      by_cases h : 0 < hd.balance
      · rw [if_pos (by simpa using h), if_pos (by simpa using h)]
        simp only [List.map_cons, List.sum_cons]
        have := ih k loan hget hbal
        rw [interestSum, interestSum] at this
        rw [this]
      · rw [if_neg (by simpa using h), if_neg (by simpa using h)]
        have := ih k loan hget hbal
        rw [interestSum, interestSum] at this
        rw [this]

/-! ## A non-positive extra budget behaves like a zero budget -/

theorem paySum_nonneg (loans : List Loan) (hr : ratesNonneg loans)
    (hm : minPaymentsNonneg loans) : 0 ≤ paySum loans := by
  rw [paySum]
  apply List.sum_nonneg
  intro x hx
  obtain ⟨l, hl, hlx⟩ := List.mem_map.mp hx
  have hmem := List.mem_of_mem_filter hl
  have hpos : 0 < l.balance := by
    have := List.of_mem_filter hl
    simpa using this
  have hb1 : 0 ≤ l.balance + l.balance * monthlyRate l.rate := by
    have := mul_nonneg (le_of_lt hpos) (monthlyRate_nonneg (hr l hmem))
    linarith
  rw [← hlx]
  exact le_min (hm l hmem) hb1

theorem monthStep_nonpos_extra (extra : ℚ) (s : List Loan × ℚ)
    (hr : ratesNonneg s.1) (hm : minPaymentsNonneg s.1) (he : extra ≤ 0) :
    monthStep extra s = monthStep 0 s := by
  have hp := paySum_nonneg s.1 hr hm
  have h1 : (monthMinPass s.1 s.2 extra).2.2 ≤ 0 := by
    rw [monthMinPass_extraLeft]; linarith
  have h2 : (monthMinPass s.1 s.2 (0 : ℚ)).2.2 ≤ 0 := by
    rw [monthMinPass_extraLeft]; linarith
  rw [monthStep, monthStep]
  rw [max_eq_left h1, max_eq_left h2, if_neg (lt_irrefl 0), if_neg (lt_irrefl 0)]
  rw [monthMinPass_fst_indep s.1 s.2 extra s.2 0,
    monthMinPass_total s.1 s.2 extra, monthMinPass_total s.1 s.2 0]

theorem simLoop_nonpos_extra (extra : ℚ) (he : extra ≤ 0) :
    ∀ (fuel : ℕ) (s : List Loan × ℚ) (months : ℕ),
      ratesNonneg s.1 → minPaymentsNonneg s.1 →
      simLoop extra fuel s months = simLoop 0 fuel s months := by
  intro fuel
  induction fuel with
  | zero => intro s months _ _; rfl
  | succ n ih =>
    intro s months hr hm
    rw [simLoop, simLoop]
    by_cases h : hasPositive s.1
    · rw [if_pos h, if_pos h, monthStep_nonpos_extra extra s hr hm he]
      refine ih (monthStep 0 s) (months + 1) ?_ ?_
      · exact monthStep_ratesNonneg 0 s hr
      · intro l hl
        obtain ⟨l0, hl0, hee⟩ := monthStep_shape 0 s l hl
        rw [hee.2.2]
        exact hm l0 hl0
    · rw [if_neg h, if_neg h]

/-! ## The stable sort -/

theorem mem_insertBy {α : Type} (key : α → ℚ) (x : α) :
    ∀ (l : List α) (a : α), a ∈ insertBy key x l ↔ a = x ∨ a ∈ l := by
  intro l
  induction l with
  | nil => intro a; simp [insertBy]
  | cons y ys ih =>
    intro a
    rw [insertBy]
    by_cases h : key x ≤ key y
    · rw [if_pos h]
      simp
    · rw [if_neg h]
      simp only [List.mem_cons, ih]
      tauto

theorem pairwise_insertBy {α : Type} (key : α → ℚ) (x : α) :
    ∀ l : List α, List.Pairwise (fun a b => key a ≤ key b) l →
      List.Pairwise (fun a b => key a ≤ key b) (insertBy key x l) := by
  intro l
  induction l with
  | nil => intro _; simp [insertBy]
  | cons y ys ih =>
    intro h
    rw [List.pairwise_cons] at h
    rw [insertBy]
    by_cases hxy : key x ≤ key y
    · rw [if_pos hxy]
      rw [List.pairwise_cons]
      refine ⟨?_, List.pairwise_cons.mpr h⟩
      intro b hb
      rcases List.mem_cons.mp hb with h1 | h1
      · exact h1 ▸ hxy
      · exact le_trans hxy (h.1 b h1)
    · rw [if_neg hxy]
      rw [List.pairwise_cons]
      constructor
      · intro b hb
        rcases (mem_insertBy key x ys b).mp hb with h1 | h1
        · exact h1 ▸ le_of_not_le hxy
        · exact h.1 b h1
      · exact ih h.2

theorem sortBy_pairwise {α : Type} (key : α → ℚ) :
    ∀ l : List α, List.Pairwise (fun a b => key a ≤ key b) (sortBy key l) := by
  intro l
  induction l with
  | nil => simp [sortBy]
  | cons x xs ih =>
    rw [sortBy]
    exact pairwise_insertBy key x _ ih

theorem filter_insertBy_pos {α : Type} (key : α → ℚ) (x : α) (v : ℚ) (hx : key x = v) :
    ∀ l : List α, (insertBy key x l).filter (fun a => decide (key a = v)) =
      x :: l.filter (fun a => decide (key a = v)) := by
  intro l
  induction l with
  | nil => simp [insertBy, hx]
  | cons y ys ih =>
    rw [insertBy]
    by_cases hxy : key x ≤ key y
    · rw [if_pos hxy]
      rw [List.filter_cons, if_pos (by simp [hx])]
    · rw [if_neg hxy]
      have hyv : ¬ (key y = v) := by
        intro hyv
        exact hxy (le_of_eq (hx.trans hyv.symm))
      rw [List.filter_cons, if_neg (by simp [hyv]), ih,
        List.filter_cons, if_neg (by simp [hyv])]

theorem filter_insertBy_neg {α : Type} (key : α → ℚ) (x : α) (v : ℚ) (hx : ¬ (key x = v)) :
    ∀ l : List α, (insertBy key x l).filter (fun a => decide (key a = v)) =
      l.filter (fun a => decide (key a = v)) := by
  intro l
  induction l with
  | nil => simp [insertBy, hx]
  | cons y ys ih =>
    rw [insertBy]
    by_cases hxy : key x ≤ key y
    · rw [if_pos hxy]
      rw [List.filter_cons, if_neg (by simp [hx])]
    · rw [if_neg hxy]
      rw [List.filter_cons, List.filter_cons]
      by_cases hy : key y = v
      · rw [if_pos (by simp [hy]), if_pos (by simp [hy]), ih]
      · rw [if_neg (by simp [hy]), if_neg (by simp [hy]), ih]

theorem sortBy_filter {α : Type} (key : α → ℚ) (v : ℚ) :
    ∀ l : List α, (sortBy key l).filter (fun a => decide (key a = v)) =
      l.filter (fun a => decide (key a = v)) := by
  intro l
  induction l with
  | nil => rfl
  | cons x xs ih =>
    rw [sortBy]
    by_cases hx : key x = v
    · rw [filter_insertBy_pos key x v hx, ih,
        List.filter_cons, if_pos (by simp [hx])]
    · rw [filter_insertBy_neg key x v hx, ih,
        List.filter_cons, if_neg (by simp [hx])]

/-! ## The store model: the simulation writes only to its fresh copies -/

theorem Store.write_data_ne (h : Store) (i j : ℕ) (l : Loan) (hne : j ≠ i) :
    (h.write i l).data j = h.data j := by
  rw [Store.write]
  dsimp only
  rw [if_neg hne]

theorem allocCopies_data_lt :
    ∀ (ids : List ℕ) (h : Store) (j : ℕ), j < h.next →
      (allocCopies h ids).1.data j = h.data j := by
  intro ids
  induction ids with
  | nil => intro h j _; rfl
  | cons i is ih =>
    intro h j hj
    rw [allocCopies]
    dsimp only
    rw [ih _ j (by dsimp only; omega)]
    dsimp only
    rw [if_neg (by omega)]

theorem allocCopies_fresh_ge :
    ∀ (ids : List ℕ) (h : Store), ∀ i ∈ (allocCopies h ids).2, h.next ≤ i := by
  intro ids
  induction ids with
  | nil => intro h i hi; exact absurd hi (List.not_mem_nil i)
  | cons a is ih =>
    intro h i hi
    rw [allocCopies] at hi
    dsimp only at hi
    rcases List.mem_cons.mp hi with h1 | h1
    · omega
    · have := ih _ i h1
      dsimp only at this
      omega

theorem monthMinPassS_frame :
    ∀ (ids : List ℕ) (h : Store) (total e : ℚ) (j : ℕ), (∀ i ∈ ids, j ≠ i) →
      (monthMinPassS ids h total e).1.data j = h.data j := by
  intro ids
  induction ids with
  | nil => intro h total e j _; rfl
  | cons i rest ih =>
    intro h total e j hj
    rw [monthMinPassS]
    dsimp only
    split
    · exact ih h total e j fun a ha => hj a (List.mem_cons_of_mem _ ha)
    · rw [ih _ _ _ j fun a ha => hj a (List.mem_cons_of_mem _ ha)]
      exact Store.write_data_ne h i j _ (hj i (List.mem_cons_self ..))

theorem applyExtraS_frame :
    ∀ (ids : List ℕ) (h : Store) (amt : ℚ) (j : ℕ), (∀ i ∈ ids, j ≠ i) →
      (applyExtraS ids h amt).data j = h.data j := by
  intro ids
  induction ids with
  | nil => intro h amt j _; rfl
  | cons i rest ih =>
    intro h amt j hj
    rw [applyExtraS]
    split
    · exact Store.write_data_ne h i j _ (hj i (List.mem_cons_self ..))
    · exact ih h amt j fun a ha => hj a (List.mem_cons_of_mem _ ha)

theorem monthStepS_frame (ids : List ℕ) (extra : ℚ) (h : Store) (total : ℚ)
    (j : ℕ) (hj : ∀ i ∈ ids, j ≠ i) :
    (monthStepS ids extra h total).1.data j = h.data j := by
  rw [monthStepS]
  split
  · rw [applyExtraS_frame ids _ _ j hj, monthMinPassS_frame ids h total extra j hj]
  · rw [monthMinPassS_frame ids h total extra j hj]

theorem simLoopS_frame (ids : List ℕ) (extra : ℚ) :
    ∀ (fuel : ℕ) (h : Store) (total : ℚ) (months : ℕ) (j : ℕ),
      (∀ i ∈ ids, j ≠ i) →
      (simLoopS ids extra fuel h total months).2.data j = h.data j := by
  intro fuel
  induction fuel with
  | zero => intro h total months j _; rfl
  | succ n ih =>
    intro h total months j hj
    rw [simLoopS]
    split
    · dsimp only
      rw [ih _ _ _ j hj]
      exact monthStepS_frame ids extra h total j hj
    · rfl

theorem simulateS_frame (h : Store) (ids : List ℕ) (extra : ℚ) (j : ℕ)
    (hj : j < h.next) : (simulateS h ids extra).2.data j = h.data j := by
  rw [simulateS]
  have hne : ∀ i ∈ (allocCopies h ids).2, j ≠ i := by
    intro i hi
    have := allocCopies_fresh_ge ids h i hi
    omega
  rw [simLoopS_frame _ extra 600 _ 0 0 j hne]
  exact allocCopies_data_lt ids h j hj

/-! ## The claims -/

set_option maxRecDepth 8000

/-- Claim C1: for every input (any balance, rate and monthly payment for
`calculate_payoff`; any loan list and extra for `simulate`), the function
terminates — both are total Lean functions — and the months value it
returns never exceeds the safety cap of 600. -/
theorem claim_C1_months_cap :
    (∀ balance rate monthly_payment : ℚ,
      (calculate_payoff balance rate monthly_payment).1 ≤ 600) ∧
    (∀ (loans : List Loan) (extra : ℚ), (simulate loans extra).1 ≤ 600) := by
  constructor
  · intro balance rate mp
    have := payoffLoop_months_le rate mp 600 balance 0 0
    simpa [calculate_payoff] using this
  · intro loans extra
    have := simLoop_months_le extra 600 (loans, 0) 0
    simpa [simulate] using this

unseal Rat.add Rat.sub Rat.mul Rat.inv in
/-- Claim C2: on `[{balance 100, rate 5, min 10}, {balance 50, rate 20,
min 10}]` with extra 20, `avalanche` puts the 20%-rate loan first in its
ordering — and the first positive-balance loan of the ordering is the one
`simulate` directs every extra payment to — and the total interest of
`avalanche` is at most that of `snowball` on the same input. -/
theorem claim_C2_avalanche_example :
    sortBy (fun l => -l.rate) [loanA, loanB] = [loanB, loanA] ∧
    (avalanche [loanA, loanB] 20).2 ≤ (snowball [loanA, loanB] 20).2 := by
  decide

/-- Claim C3: `simulate`, `snowball` and `avalanche` never mutate the
caller's loan records: in the store model, every address below the
allocation frontier — in particular every record the caller passed in —
holds the same record after the call, because the simulation writes only
to the fresh copies it allocates on entry. -/
theorem claim_C3_no_mutation :
    ∀ (h : Store) (ids : List ℕ) (extra : ℚ) (j : ℕ), j < h.next →
      (simulateS h ids extra).2.data j = h.data j ∧
      (snowballS h ids extra).2.data j = h.data j ∧
      (avalancheS h ids extra).2.data j = h.data j := by
  intro h ids extra j hj
  refine ⟨simulateS_frame h ids extra j hj, ?_, ?_⟩
  · rw [snowballS]; exact simulateS_frame h _ extra j hj
  · rw [avalancheS]; exact simulateS_frame h _ extra j hj

/-- Witness for C3 at a concrete store with frontier 2 and addresses 0, 1. -/
theorem claim_C3_witness :
    (simulateS exStore [0, 1] 5).2.data 0 = exStore.data 0 ∧
    (snowballS exStore [0, 1] 5).2.data 0 = exStore.data 0 ∧
    (avalancheS exStore [0, 1] 5).2.data 0 = exStore.data 0 :=
  claim_C3_no_mutation exStore [0, 1] 5 0 (by decide)

/-- Claim C4: on the empty loan list, `simulate` returns (0, 0) immediately,
and hence so do `snowball` and `avalanche`, without any error. -/
theorem claim_C4_empty (extra : ℚ) :
    simulate [] extra = (0, 0) ∧ snowball [] extra = (0, 0) ∧
      avalanche [] extra = (0, 0) :=
  ⟨rfl, rfl, rfl⟩

/-- Claim C5 as stated is false: it quantifies over every balance, but at
balance 0 (rate 5 > 0, payment 0) the loop guard `balance > 0` fails at
once and `calculate_payoff` returns months = 0, not the cap 600. -/
theorem claim_C5_counterexample :
    (0 : ℚ) < 5 ∧ (calculate_payoff 0 5 0).1 = 0 ∧
      (calculate_payoff 0 5 0).1 ≠ 600 := by
  decide

/-- Claim C5, amended to positive balances: for every balance > 0 and
rate > 0, `calculate_payoff(balance, rate, 0)` returns months = 600 (the
cap) and total interest `balance * ((1 + rate/100/12)^600 - 1)`, i.e. 600
months of monthly compounding on the balance. -/
theorem claim_C5_amended :
    ∀ balance rate : ℚ, 0 < balance → 0 < rate →
      calculate_payoff balance rate 0 =
        (600, balance * ((1 + monthlyRate rate) ^ 600 - 1)) := by
  intro balance rate hb hr
  rw [calculate_payoff, payoffLoop_zero_payment rate hr 600 balance 0 0 hb]
  norm_num

/-- Witness for the amended C5 at balance 1, rate 1200. -/
theorem claim_C5_witness :
    calculate_payoff 1 1200 0 = (600, 1 * ((1 + monthlyRate 1200) ^ 600 - 1)) :=
  claim_C5_amended 1 1200 (by norm_num) (by norm_num)

/-- Claim C6: after any payment application a balance is clamped to zero
and never negative — the `calculate_payoff` iteration step is non-negative
unconditionally, the minimum-payment pass and the extra payment preserve
non-negativity of every balance, and hence from an input with non-negative
balances every month of the simulation keeps every balance non-negative. -/
theorem claim_C6_balances_nonneg :
    (∀ rate mp b : ℚ, 0 ≤ payoffStep rate mp b) ∧
    (∀ (loans : List Loan) (total extraLeft : ℚ), allNonneg loans →
      allNonneg (monthMinPass loans total extraLeft).1) ∧
    (∀ (loans : List Loan) (amt : ℚ), allNonneg loans →
      allNonneg (applyExtra loans amt)) ∧
    (∀ (extra : ℚ) (n : ℕ) (loans : List Loan) (total : ℚ), allNonneg loans →
      allNonneg ((monthStep extra)^[n] (loans, total)).1) :=
  ⟨payoffStep_nonneg, monthMinPass_nonneg, applyExtra_nonneg,
    fun extra n loans total h => monthStep_iterate_nonneg extra n (loans, total) h⟩

/-- Witness for C6 after three months on a concrete loan. -/
theorem claim_C6_witness :
    allNonneg ((monthStep 7)^[3] ([loanA], 0)).1 :=
  claim_C6_balances_nonneg.2.2.2 7 3 [loanA] 0 (by decide)

/-- Claim C7: with non-negative balances and rates the running total
interest never decreases from one iteration to the next, in
`calculate_payoff` and in `simulate`, so the returned total interest is
non-negative. -/
theorem claim_C7_interest_monotone :
    (∀ (rate mp : ℚ) (fuel : ℕ) (b total : ℚ) (months : ℕ),
      0 ≤ b → 0 ≤ rate → total ≤ (payoffLoop rate mp fuel b total months).2) ∧
    (∀ balance rate mp : ℚ, 0 ≤ balance → 0 ≤ rate →
      0 ≤ (calculate_payoff balance rate mp).2) ∧
    (∀ (extra : ℚ) (loans : List Loan) (total : ℚ),
      allNonneg loans → ratesNonneg loans →
      total ≤ (monthStep extra (loans, total)).2) ∧
    (∀ (loans : List Loan) (extra : ℚ),
      allNonneg loans → ratesNonneg loans → 0 ≤ (simulate loans extra).2) := by
  refine ⟨fun rate mp fuel b total months hb hr =>
    payoffLoop_total_mono rate mp fuel b total months hb hr, ?_, ?_, ?_⟩
  · intro balance rate mp hb hr
    have := payoffLoop_total_mono rate mp 600 balance 0 0 hb hr
    simpa [calculate_payoff] using this
  · intro extra loans total hb hr
    rw [monthStep_total]
    have := interestSum_nonneg loans hr
    dsimp only
    linarith
  · intro loans extra hb hr
    have := simLoop_total_mono extra 600 (loans, 0) 0 hb hr
    simpa [simulate] using this

/-- Witness for C7 on the spec's two-loan input. -/
theorem claim_C7_witness :
    0 ≤ (simulate [loanA, loanB] 20).2 :=
  claim_C7_interest_monotone.2.2.2 [loanA, loanB] 20 (by decide) (by decide)

/-- Claim C8: a loan whose balance is ≤ 0 at the start of a month is
skipped entirely: its record (so in particular its balance) is unchanged
after that month and every later month, and the month's interest total
equals the total with that loan removed, so it accrues nothing and
receives nothing. -/
theorem claim_C8_skip_nonpositive :
    ∀ (extra : ℚ) (loans : List Loan) (total : ℚ) (i : ℕ) (loan : Loan) (n : ℕ),
      loans[i]? = some loan → loan.balance ≤ 0 →
      ((monthStep extra)^[n] (loans, total)).1[i]? = some loan ∧
      (monthStep extra (loans, total)).2 = total + interestSum (loans.eraseIdx i) := by
  intro extra loans total i loan n hget hbal
  constructor
  · exact monthStep_iterate_get_nonpos extra n (loans, total) i loan hget hbal
  · rw [monthStep_total, interestSum_eraseIdx loans i loan hget hbal]

/-- Witness for C8: a paid-off loan in front of a live one, four months. -/
theorem claim_C8_witness :
    ((monthStep 3)^[4] (exLoans, 0)).1[0]? = some exSkip ∧
    (monthStep 3 (exLoans, 0)).2 = 0 + interestSum (exLoans.eraseIdx 0) :=
  claim_C8_skip_nonpositive 3 exLoans 0 0 exSkip 4 (by decide) (by decide)

/-- Claim C9: `snowball` sorts ascending by balance and `avalanche`
descending by rate, stably: loans sharing the sort key keep their relative
order from the input list (the filter of the sorted list at any key value
equals the filter of the input list). -/
theorem claim_C9_sort_stable :
    (∀ loans : List Loan, List.Pairwise (fun a b => a.balance ≤ b.balance)
      (sortBy (fun l => l.balance) loans)) ∧
    (∀ loans : List Loan, List.Pairwise (fun a b => b.rate ≤ a.rate)
      (sortBy (fun l => -l.rate) loans)) ∧
    (∀ (loans : List Loan) (extra : ℚ),
      snowball loans extra = simulate (sortBy (fun l => l.balance) loans) extra ∧
      avalanche loans extra = simulate (sortBy (fun l => -l.rate) loans) extra) ∧
    (∀ (loans : List Loan) (v : ℚ),
      (sortBy (fun l => l.balance) loans).filter (fun l => decide (l.balance = v)) =
        loans.filter (fun l => decide (l.balance = v))) ∧
    (∀ (loans : List Loan) (v : ℚ),
      (sortBy (fun l => -l.rate) loans).filter (fun l => decide (l.rate = v)) =
        loans.filter (fun l => decide (l.rate = v))) := by
  refine ⟨fun loans => sortBy_pairwise _ loans, ?_,
    fun loans extra => ⟨rfl, rfl⟩, fun loans v => sortBy_filter _ v loans, ?_⟩
  · intro loans
    exact (sortBy_pairwise (fun l : Loan => -l.rate) loans).imp
      fun h => by simpa using h
  · intro loans v
    have hc : ∀ ll : List Loan, ∀ a ∈ ll,
        (decide (-a.rate = -v)) = (decide (a.rate = v)) := by
      intro ll a _
      simp [neg_inj]
    calc (sortBy (fun l => -l.rate) loans).filter (fun l => decide (l.rate = v))
        = (sortBy (fun l => -l.rate) loans).filter (fun a => decide (-a.rate = -v)) :=
          (List.filter_congr (hc _)).symm
      _ = loans.filter (fun a => decide (-a.rate = -v)) :=
          sortBy_filter (fun l : Loan => -l.rate) (-v) loans
      _ = loans.filter (fun l => decide (l.rate = v)) := List.filter_congr (hc _)

unseal Rat.add Rat.sub Rat.mul Rat.inv in
/-- Claim C10 as stated is false: it quantifies over every loan list, and
a loan with a sufficiently negative rate makes `min(min_payment, balance)`
negative, refunding the pool, so a negative extra differs from zero extra:
on `[refundLoan, slowLoan]`, extra −5 yields (4, −20) but extra 0 yields
(1, −20). -/
theorem claim_C10_counterexample :
    (-5 : ℚ) ≤ 0 ∧
      simulate [refundLoan, slowLoan] (-5) ≠ simulate [refundLoan, slowLoan] 0 := by
  decide

/-- Claim C10, amended to the documented domain of non-negative rates and
minimum payments: then every month's payments are non-negative, the pool
stays ≤ 0 and is clamped away, and a non-positive extra behaves exactly
like extra 0. -/
theorem claim_C10_amended :
    ∀ (loans : List Loan) (extra : ℚ), ratesNonneg loans →
      minPaymentsNonneg loans → extra ≤ 0 →
      simulate loans extra = simulate loans 0 := by
  intro loans extra hr hm he
  rw [simulate, simulate, simLoop_nonpos_extra extra he 600 (loans, 0) 0 hr hm]

unseal Rat.add Rat.sub Rat.mul Rat.inv in
/-- Witness for the amended C10 on a concrete loan and extra −3. -/
theorem claim_C10_witness :
    simulate [loanA] (-3) = simulate [loanA] 0 :=
  claim_C10_amended [loanA] (-3) (by decide) (by decide) (by decide)

end BudgetApp
